import Mathlib

/-!
Verification of `ticminimaxtoe.py`: a shallow embedding of the game-state
model (`Game`) and the move-selection engine (`AI`), with theorems checking
the natural-language specification against the code.

Conventions of the embedding:
* Python single-character string marks (`"X"`, `"O"`, the dead literal `"Y"`)
  are modelled as `Char`; a board cell holds `Option Char` (`None` ↦ `none`).
* The mutable `Game` object is modelled by explicit state passing: mutating
  methods take a `Game` and return the updated `Game`.
* `random.randint(a, b)` is modelled by an explicit parameter
  `rnd : Nat → Nat → Nat`; a particular draw is "possible" when
  `a ≤ rnd a b ≤ b`.
* Python's `min`/`max` builtins raise `ValueError` on an empty sequence;
  fallible paths therefore return `Except PyError _`.
-/

namespace TicMiniMaxToe

/-- Python builtin exceptions that the modelled code can raise.  The only one
reachable in this code is `ValueError`, raised by `min(...)`/`max(...)` on an
empty sequence. -/
inductive PyError where
  | ValueError
deriving DecidableEq

instance {ε α : Type} [DecidableEq ε] [DecidableEq α] :
    DecidableEq (Except ε α) := fun x y =>
  match x, y with
  | .error a, .error b =>
    decidable_of_iff (a = b) ⟨fun h => by rw [h], fun h => by injection h⟩
  | .error _, .ok _ => .isFalse (fun h => Except.noConfusion h)
  | .ok _, .error _ => .isFalse (fun h => Except.noConfusion h)
  | .ok a, .ok b =>
    decidable_of_iff (a = b) ⟨fun h => by rw [h], fun h => by injection h⟩

/-- The error of the spec's `apply_move` contract (`InvalidMove`). -/
inductive MoveError where
  | InvalidMove
deriving DecidableEq

/-- `Game` from `ticminimaxtoe.py`: the 9-cell board, plus the constructor's
other two fields `ai_moves_count` and `status`, which the source never reads
or writes after `__init__`, and `current_player`. -/
structure Game where
  board : List (Option Char)
  ai_moves_count : Nat
  status : String
  current_player : Char
deriving DecidableEq

/-- `Game.__init__`: board of nine `None`s, X to move. -/
def initGame : Game :=
  { board := List.replicate 9 none
    ai_moves_count := 0
    status := "Running"
    current_player := 'X' }

/-- `Game.winning_combos`: the 8 three-in-a-row index triples. -/
def winning_combos : List (List Nat) :=
  [[0, 1, 2], [3, 4, 5], [6, 7, 8],
   [0, 3, 6], [1, 4, 7], [2, 5, 8],
   [0, 4, 8], [2, 4, 6]]

/-- `Game.get_enemy`: the opposing mark of a given mark. -/
def get_enemy (player : Char) : Char :=
  if player = 'X' then 'O' else 'X'

/-- `Game.change_player`: toggle `current_player` to its enemy. -/
def change_player (g : Game) : Game :=
  { g with current_player := get_enemy g.current_player }

/-- Helper for `available_cells`: Python's
`[cell for cell, cell_value in enumerate(board) if cell_value is None]`,
with `i` the index of the first element of `b`. -/
def avail_aux : Nat → List (Option Char) → List Nat
  | _, [] => []
  | i, none :: rest => i :: avail_aux (i + 1) rest
  | i, some _ :: rest => avail_aux (i + 1) rest

/-- `Game.available_cells`: indices of the empty board cells, in order. -/
def available_cells (g : Game) : List Nat :=
  avail_aux 0 g.board

/-- Helper for `get_own_squares`, indexing from `i`. -/
def own_aux (player : Char) : Nat → List (Option Char) → List Nat
  | _, [] => []
  | i, c :: rest =>
    if c = some player then i :: own_aux player (i + 1) rest
    else own_aux player (i + 1) rest

/-- `Game.get_own_squares`: indices of the cells occupied by `player`. -/
def get_own_squares (g : Game) (player : Char) : List Nat :=
  own_aux player 0 g.board

/-- The inner loop of `get_winner`: `win` stays `True` iff every position of
`combo` is among `positions`. -/
def combo_won (positions combo : List Nat) : Bool :=
  combo.all (fun pos => positions.contains pos)

/-- One player's half of `get_winner`: some winning combo is fully owned. -/
def has_win (g : Game) (player : Char) : Bool :=
  winning_combos.any (fun combo => combo_won (get_own_squares g player) combo)

/-- `Game.get_winner`: checks `'X'` before `'O'`, returns the first player
owning a full winning combo, else `none`. -/
def get_winner (g : Game) : Option Char :=
  if has_win g 'X' then some 'X'
  else if has_win g 'O' then some 'O'
  else none

/-- `Game.is_game_over`: no empty cell left, or there is a winner. -/
def is_game_over (g : Game) : Bool :=
  if available_cells g = [] then true
  else if get_winner g ≠ none then true
  else false

/-- `Game.make_move`: write `player` into `cell` (also used with `none` to
erase a cell during search undo) and unconditionally toggle the turn.  The
source performs no validation here. -/
def make_move (g : Game) (cell : Nat) (player : Option Char) : Game :=
  change_player { g with board := g.board.set cell player }

/-- `Game.validate_move`: `cell` within 0–8 and the addressed cell empty.
The cell argument is `Int` so that the spec's `cell = -1` case is statable. -/
def validate_move (g : Game) (cell : Int) : Bool :=
  if cell < 0 ∨ 8 < cell then false
  else if g.board.getD cell.toNat none ≠ none then false
  else true

/-- The spec's `apply_move(cell, mark) -> Result<(), InvalidMove>`: the
`validate_move`-guarded `make_move`, exactly as the driver uses the pair
(`main` validates a move and only then calls `make_move`).  On failure no new
state is produced, so the caller's `Game` is unchanged. -/
def apply_move (g : Game) (cell : Int) (mark : Char) : Except MoveError Game :=
  if validate_move g cell then .ok (make_move g cell.toNat (some mark))
  else .error .InvalidMove

/-- `current_player` is one of the two real marks. -/
abbrev valid_player (g : Game) : Prop :=
  g.current_player = 'X' ∨ g.current_player = 'O'

/-- The states reachable by the driver loop in `main`: from `initGame`,
repeatedly check the game is not over, validate a cell, and play it as the
current player (`game.make_move(move, game.current_player)`). -/
inductive Reachable : Game → Prop where
  | init : Reachable initGame
  | step : ∀ (g : Game) (cell : Nat), Reachable g →
      is_game_over g = false → validate_move g (Int.ofNat cell) = true →
      Reachable (make_move g cell (some g.current_player))

/-- Number of empty cells; the termination measure of the search. -/
def count_empty (g : Game) : Nat :=
  (available_cells g).length

/-- `AI.__minimax`, fuelled.  The Python recursion terminates because every
recursive call is on a board with one empty cell fewer; `fuel` makes that
measure explicit (`minimax_run` below supplies `count_empty g + 1`, which the
lemmas show is never exhausted, so the fuel-0 branch is unreachable there).
The result pairs the returned value with the state of the mutated `game`
object when the call returns.  Note the terminal mapping of the source:
winner `"X"` ↦ `-1`, winner `"Y"` ↦ `1` (a literal `get_winner` never
produces), anything else — draws and `"O"` wins alike — ↦ `0`. -/
def minimaxF : Nat → Game → Int → Char → Int × Game
  | 0, g, _, _ => (0, g)
  | fuel + 1, g, depth, player =>
    if is_game_over g then
      (if get_winner g = some 'X' then -1
       else if get_winner g = some 'Y' then 1
       else 0, g)
    else if player = 'O' then
      (available_cells g).foldl (fun acc move =>
        let r := minimaxF fuel (make_move acc.2 move (some player)) (depth - 1)
          (get_enemy player)
        (max acc.1 r.1, make_move r.2 move none)) (-1, g)
    else
      (available_cells g).foldl (fun acc move =>
        let r := minimaxF fuel (make_move acc.2 move (some player)) (depth - 1)
          (get_enemy player)
        (min acc.1 r.1, make_move r.2 move none)) (1, g)

/-- `AI.__minimax` itself: the fuelled recursion with always-sufficient fuel. -/
def minimax_run (g : Game) (depth : Int) (player : Char) : Int × Game :=
  minimaxF (count_empty g + 1) g depth player

/-- Python `min(l)`: `ValueError` on an empty sequence. -/
def pymin (l : List Nat) : Except PyError Nat :=
  match l with
  | [] => .error .ValueError
  | x :: xs => .ok (xs.foldl min x)

/-- Python `max(l)`: `ValueError` on an empty sequence. -/
def pymax (l : List Nat) : Except PyError Nat :=
  match l with
  | [] => .error .ValueError
  | x :: xs => .ok (xs.foldl max x)

/-- The candidate-accumulation loop of `AI.__get_best_choice`: for every legal
move, play it, evaluate with `__minimax`, undo it; a value strictly above the
neutral value 0 resets `choices` to just that move, a value equal to 0 appends
the move, a value below 0 leaves `choices` alone.  Returns the accumulated
`choices` and the state of the `game` object after the loop. -/
def best_choice_scan (g : Game) (depth : Int) (player : Char) : List Nat × Game :=
  (available_cells g).foldl (fun acc move =>
    let r := minimax_run (make_move acc.2 move (some player)) (depth - 1)
      (get_enemy player)
    let g2 := make_move r.2 move none
    (if r.1 > 0 then [move]
     else if r.1 = 0 then acc.1 ++ [move]
     else acc.1, g2)) ([], g)

/-- `AI.__get_best_choice` after its loop.  In the source,
`if choices is not None:` is always true — `choices` is a list, never `None` —
so the subsequent fallback draw over `free_cells` is dead code; the function
always returns `randint(min(choices), max(choices))`, which raises
`ValueError` when `choices` is empty. -/
def get_best_choice (rnd : Nat → Nat → Nat) (g : Game) (depth : Int)
    (player : Char) : Except PyError (Nat × Game) :=
  let s := best_choice_scan g depth player
  match pymin s.1, pymax s.1 with
  | .ok lo, .ok hi => .ok (rnd lo hi, s.2)
  | _, _ => .error .ValueError

/-- `AI.__make_easy_move`: `randint(min(available), max(available))` — a draw
from the index range, not from the set of available cells. -/
def make_easy_move (rnd : Nat → Nat → Nat) (g : Game) : Except PyError Nat :=
  match pymin (available_cells g), pymax (available_cells g) with
  | .ok lo, .ok hi => .ok (rnd lo hi)
  | _, _ => .error .ValueError

/-- `AI.__make_master_move`: best choice at `depth = turns_left` for the
current player. -/
def make_master_move (rnd : Nat → Nat → Nat) (g : Game) :
    Except PyError (Nat × Game) :=
  get_best_choice rnd g (Int.ofNat (available_cells g).length) g.current_player

/-- `AI.play`: dispatch on the difficulty; the easy path does not touch the
game state, so it is paired with the unchanged `g`. -/
def play (rnd : Nat → Nat → Nat) (difficulty : String) (g : Game) :
    Except PyError (Nat × Game) :=
  if difficulty = "easy" then (make_easy_move rnd g).map (fun c => (c, g))
  else make_master_move rnd g

mutual

/-- Certificate search for the lower bound of the minimax value: with O to
move and `fuel` plies of lookahead, O has a move after which X can never be
the winner of a reached terminal state. -/
def oSafe : Nat → Game → Bool
  | 0, _ => false
  | fuel + 1, g =>
    if is_game_over g then
      (if get_winner g = some 'X' then false else true)
    else
      (available_cells g).any (fun m => xSafe fuel (make_move g m (some 'O')))

/-- Companion of `oSafe` with X to move: whatever X plays, O keeps X from
winning. -/
def xSafe : Nat → Game → Bool
  | 0, _ => false
  | fuel + 1, g =>
    if is_game_over g then
      (if get_winner g = some 'X' then false else true)
    else
      (available_cells g).all (fun m => oSafe fuel (make_move g m (some 'X')))

end

/-! ### Basic lemmas about the board primitives -/

theorem avail_aux_mem : ∀ (b : List (Option Char)) (i m : Nat),
    m ∈ avail_aux i b → ∃ j, b[j]? = some none ∧ m = i + j := by
  intro b
  induction b with
  | nil => intro i m h; simp [avail_aux] at h
  | cons c rest ih =>
    intro i m h
    cases c with
    | none =>
      simp only [avail_aux, List.mem_cons] at h
      rcases h with h | h
      · exact ⟨0, by simp, by omega⟩
      · obtain ⟨j, hj, hm⟩ := ih (i + 1) m h
        exact ⟨j + 1, by simpa using hj, by omega⟩
    | some a =>
      obtain ⟨j, hj, hm⟩ := ih (i + 1) m (by simpa [avail_aux] using h)
      exact ⟨j + 1, by simpa using hj, by omega⟩

theorem mem_avail {g : Game} {m : Nat} (h : m ∈ available_cells g) :
    g.board[m]? = some none := by
  obtain ⟨j, hj, hm⟩ := avail_aux_mem g.board 0 m h
  simpa [hm] using hj

theorem avail_aux_length : ∀ (b : List (Option Char)) (i : Nat),
    (avail_aux i b).length = b.countP (fun c => c.isNone) := by
  intro b
  induction b with
  | nil => intro i; simp [avail_aux, List.countP_nil]
  | cons c rest ih =>
    intro i
    cases c with
    | none => simp [avail_aux, List.countP_cons, ih]
    | some a => simp [avail_aux, List.countP_cons, ih]

theorem countP_set_occupied : ∀ (b : List (Option Char)) (m : Nat) (p : Char),
    b[m]? = some none →
    (b.set m (some p)).countP (fun c => c.isNone) + 1
      = b.countP (fun c => c.isNone) := by
  intro b
  induction b with
  | nil => intro m p h; simp at h
  | cons c rest ih =>
    intro m p h
    cases m with
    | zero =>
      simp at h
      simp [h, List.countP_cons]
    | succ m =>
      simp at h
      have := ih m p h
      simp [List.countP_cons]
      omega

theorem set_none_of_get_none : ∀ (b : List (Option Char)) (m : Nat),
    b[m]? = some none → b.set m none = b := by
  intro b
  induction b with
  | nil => intro m h; simp at h
  | cons c rest ih =>
    intro m h
    cases m with
    | zero => simp at h; simp [h]
    | succ m => simp at h; simp [ih m h]

theorem get_enemy_cases (c : Char) : get_enemy c = 'O' ∨ get_enemy c = 'X' := by
  by_cases h : c = 'X' <;> simp [get_enemy, h]

theorem get_enemy_get_enemy {c : Char} (h : c = 'X' ∨ c = 'O') :
    get_enemy (get_enemy c) = c := by
  rcases h with h | h <;> subst h <;> decide

theorem valid_player_make_move (g : Game) (cell : Nat) (p : Option Char) :
    valid_player (make_move g cell p) := by
  have := get_enemy_cases g.current_player
  simp only [make_move, change_player, valid_player]
  tauto

theorem reachable_valid_player {g : Game} (h : Reachable g) : valid_player g := by
  induction h with
  | init => exact Or.inl rfl
  | step g cell _ _ _ _ => exact valid_player_make_move g cell _

/-- The apply/undo pair: playing a mark into an empty cell and then erasing
that cell restores the whole game state, provided `current_player` is one of
X and O (the toggle is an involution exactly on those two marks). -/
theorem make_move_undo (g : Game) (cell : Nat) (mark : Char)
    (hv : valid_player g) (he : g.board[cell]? = some none) :
    make_move (make_move g cell (some mark)) cell none = g := by
  have hb : (g.board.set cell (some mark)).set cell none = g.board := by
    rw [List.set_set]
    exact set_none_of_get_none g.board cell he
  have hp : get_enemy (get_enemy g.current_player) = g.current_player :=
    get_enemy_get_enemy hv
  cases g
  simp_all [make_move, change_player]

theorem count_empty_make_move (g : Game) (m : Nat) (p : Char)
    (he : g.board[m]? = some none) :
    count_empty (make_move g m (some p)) + 1 = count_empty g := by
  simp only [count_empty, available_cells, make_move, change_player,
    avail_aux_length]
  exact countP_set_occupied g.board m p he

theorem avail_ne_nil_of_not_over {g : Game} (h : is_game_over g = false) :
    available_cells g ≠ [] := by
  intro hnil
  simp [is_game_over, hnil] at h

theorem count_empty_pos_of_mem {g : Game} {m : Nat}
    (h : m ∈ available_cells g) : 0 < count_empty g :=
  List.length_pos.mpr (List.ne_nil_of_mem h)

theorem get_winner_range (g : Game) :
    get_winner g = some 'X' ∨ get_winner g = some 'O' ∨ get_winner g = none := by
  simp only [get_winner]
  split
  · exact Or.inl rfl
  · split
    · exact Or.inr (Or.inl rfl)
    · exact Or.inr (Or.inr rfl)

theorem get_winner_ne_Y (g : Game) : get_winner g ≠ some 'Y' := by
  rcases get_winner_range g with h | h | h <;> simp [h]

/-! ### The search loops restore the game state -/

/-- The common shape of every search loop in `AI`: fold over a list of empty
cells of `g`, each step playing the move on the threaded state, evaluating
`ev`, and undoing the move.  If `ev` restores its argument on each played
state, the loop's threaded state ends exactly at `g`. -/
theorem fold_scan_snd {α : Type} (g : Game) (p : Char) (ev : Game → Int × Game)
    (hvp : valid_player g)
    (hres : ∀ m, g.board[m]? = some none →
      (ev (make_move g m (some p))).2 = make_move g m (some p))
    (upd : α → Nat → Int → α) :
    ∀ (l : List Nat), (∀ m ∈ l, g.board[m]? = some none) → ∀ (a : α),
      (l.foldl (fun acc move =>
        let r := ev (make_move acc.2 move (some p))
        (upd acc.1 move r.1, make_move r.2 move none)) (a, g)).2 = g := by
  intro l
  induction l with
  | nil => intro _ a; rfl
  | cons m l' ih =>
    intro hl a
    have hm : g.board[m]? = some none := hl m (List.mem_cons_self m l')
    rw [List.foldl_cons]
    show (List.foldl (fun acc move =>
        let r := ev (make_move acc.2 move (some p))
        (upd acc.1 move r.1, make_move r.2 move none))
      (upd a m (ev (make_move g m (some p))).1,
        make_move (ev (make_move g m (some p))).2 m none) l').2 = g
    rw [hres m hm, make_move_undo g m p hvp hm]
    exact ih (fun x hx => hl x (List.mem_cons_of_mem m hx)) _

/-- `__minimax` restores the game it mutates: with sufficient fuel and a real
current player, the state returned equals the state passed in. -/
theorem minimaxF_snd : ∀ (fuel : Nat) (g : Game) (d : Int) (p : Char),
    count_empty g < fuel → valid_player g → (minimaxF fuel g d p).2 = g := by
  intro fuel
  induction fuel with
  | zero => intro g d p h; exact absurd h (Nat.not_lt_zero _)
  | succ fuel ih =>
    intro g d p hcnt hvp
    cases hover : is_game_over g with
    | true => simp [minimaxF, hover]
    | false =>
      have hmem : ∀ m ∈ available_cells g, g.board[m]? = some none :=
        fun m hm => mem_avail hm
      have hres : ∀ m, g.board[m]? = some none →
          (minimaxF fuel (make_move g m (some p)) (d - 1) (get_enemy p)).2
            = make_move g m (some p) := by
        intro m hm
        apply ih
        · have := count_empty_make_move g m p hm
          omega
        · exact valid_player_make_move g m (some p)
      by_cases hp : p = 'O'
      · subst hp
        simp only [minimaxF, hover, Bool.false_eq_true, if_false, if_pos rfl]
        exact fold_scan_snd g 'O'
          (fun g' => minimaxF fuel g' (d - 1) (get_enemy 'O')) hvp hres
          (fun a _ v => max a v) (available_cells g) hmem (-1)
      · simp only [minimaxF, hover, Bool.false_eq_true, if_false, if_neg hp]
        exact fold_scan_snd g p
          (fun g' => minimaxF fuel g' (d - 1) (get_enemy p)) hvp hres
          (fun a _ v => min a v) (available_cells g) hmem 1

/-- `__minimax` with its always-sufficient fuel restores the game state. -/
theorem minimax_run_snd (g : Game) (d : Int) (p : Char) (hvp : valid_player g) :
    (minimax_run g d p).2 = g :=
  minimaxF_snd (count_empty g + 1) g d p (Nat.lt_succ_self _) hvp

/-! ### The minimax value is always -1 or 0 -/

theorem max_mem01 {a b : Int} (ha : a = -1 ∨ a = 0) (hb : b = -1 ∨ b = 0) :
    max a b = -1 ∨ max a b = 0 := by
  rcases ha with rfl | rfl <;> rcases hb with rfl | rfl <;> simp

theorem min_mem01 {a b : Int} (ha : a = -1 ∨ a = 0 ∨ a = 1)
    (hb : b = -1 ∨ b = 0) : min a b = -1 ∨ min a b = 0 := by
  rcases ha with rfl | rfl | rfl <;> rcases hb with rfl | rfl <;> simp

theorem fold_val_max {ev : Game → Int × Game}
    (hch : ∀ g', (ev g').1 = -1 ∨ (ev g').1 = 0) (p : Char) :
    ∀ (l : List Nat) (ac : Int × Game), (ac.1 = -1 ∨ ac.1 = 0) →
      ((l.foldl (fun acc move =>
        let r := ev (make_move acc.2 move (some p))
        (max acc.1 r.1, make_move r.2 move none)) ac).1 = -1 ∨
       (l.foldl (fun acc move =>
        let r := ev (make_move acc.2 move (some p))
        (max acc.1 r.1, make_move r.2 move none)) ac).1 = 0) := by
  intro l
  induction l with
  | nil => intro ac h; exact h
  | cons m l' ih =>
    intro ac h
    rw [List.foldl_cons]
    exact ih _ (max_mem01 h (hch _))

theorem fold_val_min {ev : Game → Int × Game}
    (hch : ∀ g', (ev g').1 = -1 ∨ (ev g').1 = 0) (p : Char) :
    ∀ (l : List Nat) (ac : Int × Game), (ac.1 = -1 ∨ ac.1 = 0) →
      ((l.foldl (fun acc move =>
        let r := ev (make_move acc.2 move (some p))
        (min acc.1 r.1, make_move r.2 move none)) ac).1 = -1 ∨
       (l.foldl (fun acc move =>
        let r := ev (make_move acc.2 move (some p))
        (min acc.1 r.1, make_move r.2 move none)) ac).1 = 0) := by
  intro l
  induction l with
  | nil => intro ac h; exact h
  | cons m l' ih =>
    intro ac h
    rw [List.foldl_cons]
    exact ih _ (min_mem01 (h.imp id Or.inl) (hch _))

/-- The value `__minimax` returns is always -1 or 0: the +1 branch compares
`get_winner` against the dead literal `"Y"`, and the minimizing pass runs over
a non-empty move list whenever the state is not terminal. -/
theorem minimaxF_fst : ∀ (fuel : Nat) (g : Game) (d : Int) (p : Char),
    (minimaxF fuel g d p).1 = -1 ∨ (minimaxF fuel g d p).1 = 0 := by
  intro fuel
  induction fuel with
  | zero => intro g d p; exact Or.inr rfl
  | succ fuel ih =>
    intro g d p
    cases hover : is_game_over g with
    | true =>
      simp only [minimaxF, hover, if_true]
      rcases get_winner_range g with h | h | h <;> simp [h]
    | false =>
      have hch : ∀ g', (minimaxF fuel g' (d - 1) (get_enemy p)).1 = -1 ∨
          (minimaxF fuel g' (d - 1) (get_enemy p)).1 = 0 :=
        fun g' => ih g' (d - 1) (get_enemy p)
      obtain ⟨m, l', hl⟩ : ∃ m l', available_cells g = m :: l' := by
        cases hc : available_cells g with
        | nil => exact absurd hc (avail_ne_nil_of_not_over hover)
        | cons m l' => exact ⟨m, l', rfl⟩
      by_cases hp : p = 'O'
      · subst hp
        simp only [minimaxF, hover, Bool.false_eq_true, if_false, if_pos rfl]
        exact fold_val_max hch 'O' (available_cells g) (-1, g) (Or.inl rfl)
      · simp only [minimaxF, hover, Bool.false_eq_true, if_false, if_neg hp]
        rw [hl, List.foldl_cons]
        refine fold_val_min hch p l' _ ?_
        show min 1 (minimaxF fuel (make_move g m (some p)) (d - 1)
          (get_enemy p)).1 = -1 ∨ _ = 0
        exact min_mem01 (Or.inr (Or.inr rfl)) (hch _)

/-- The value of `__minimax` as actually invoked is always -1 or 0. -/
theorem minimax_run_fst (g : Game) (d : Int) (p : Char) :
    (minimax_run g d p).1 = -1 ∨ (minimax_run g d p).1 = 0 :=
  minimaxF_fst (count_empty g + 1) g d p

/-! ### Soundness of the `oSafe`/`xSafe` certificate -/

theorem fold_max_fst_mono {ev : Game → Int × Game} (p : Char) :
    ∀ (l : List Nat) (ac : Int × Game),
      ac.1 ≤ (l.foldl (fun acc move =>
        let r := ev (make_move acc.2 move (some p))
        (max acc.1 r.1, make_move r.2 move none)) ac).1 := by
  intro l
  induction l with
  | nil => intro ac; exact le_refl _
  | cons m l' ih =>
    intro ac
    rw [List.foldl_cons]
    exact le_trans (le_max_left _ _) (ih _)

theorem fold_max_fst_ge_mem (g : Game) (p : Char) (ev : Game → Int × Game)
    (hvp : valid_player g)
    (hres : ∀ m, g.board[m]? = some none →
      (ev (make_move g m (some p))).2 = make_move g m (some p)) :
    ∀ (l : List Nat), (∀ m ∈ l, g.board[m]? = some none) →
      ∀ (v0 : Int) (m0 : Nat), m0 ∈ l →
      (ev (make_move g m0 (some p))).1 ≤
        (l.foldl (fun acc move =>
          let r := ev (make_move acc.2 move (some p))
          (max acc.1 r.1, make_move r.2 move none)) (v0, g)).1 := by
  intro l
  induction l with
  | nil => intro _ v0 m0 h; simp at h
  | cons m l' ih =>
    intro hl v0 m0 hm0
    have hm : g.board[m]? = some none := hl m (List.mem_cons_self m l')
    rw [List.foldl_cons]
    show (ev (make_move g m0 (some p))).1 ≤ (List.foldl _
      (max v0 (ev (make_move (v0, g).2 m (some p))).1,
        make_move (ev (make_move (v0, g).2 m (some p))).2 m none) l').1
    rw [show (v0, g).2 = g from rfl, hres m hm, make_move_undo g m p hvp hm]
    rcases List.mem_cons.mp hm0 with rfl | hmem
    · exact le_trans (le_max_right _ _) (fold_max_fst_mono p l' _)
    · exact ih (fun x hx => hl x (List.mem_cons_of_mem m hx)) _ m0 hmem

theorem fold_min_fst_ge (g : Game) (p : Char) (ev : Game → Int × Game)
    (hvp : valid_player g)
    (hres : ∀ m, g.board[m]? = some none →
      (ev (make_move g m (some p))).2 = make_move g m (some p)) :
    ∀ (l : List Nat), (∀ m ∈ l, g.board[m]? = some none) →
      (∀ m ∈ l, 0 ≤ (ev (make_move g m (some p))).1) →
      ∀ (v0 : Int), 0 ≤ v0 →
      0 ≤ (l.foldl (fun acc move =>
        let r := ev (make_move acc.2 move (some p))
        (min acc.1 r.1, make_move r.2 move none)) (v0, g)).1 := by
  intro l
  induction l with
  | nil => intro _ _ v0 h0; exact h0
  | cons m l' ih =>
    intro hl hge v0 h0
    have hm : g.board[m]? = some none := hl m (List.mem_cons_self m l')
    rw [List.foldl_cons]
    show 0 ≤ (List.foldl _
      (min v0 (ev (make_move (v0, g).2 m (some p))).1,
        make_move (ev (make_move (v0, g).2 m (some p))).2 m none) l').1
    rw [show (v0, g).2 = g from rfl, hres m hm, make_move_undo g m p hvp hm]
    exact ih (fun x hx => hl x (List.mem_cons_of_mem m hx))
      (fun x hx => hge x (List.mem_cons_of_mem m hx)) _
      (le_min h0 (hge m (List.mem_cons_self m l')))

/-- Soundness of the certificate: when `oSafe` (resp. `xSafe`) holds with
enough fuel, the minimax value with O (resp. X) to move is at least 0. -/
theorem safe_sound : ∀ (fuel : Nat) (g : Game) (d : Int),
    count_empty g < fuel → valid_player g →
    ((oSafe fuel g = true → 0 ≤ (minimaxF fuel g d 'O').1) ∧
     (xSafe fuel g = true → 0 ≤ (minimaxF fuel g d 'X').1)) := by
  intro fuel
  induction fuel with
  | zero => intro g d h; exact absurd h (Nat.not_lt_zero _)
  | succ fuel ih =>
    intro g d hcnt hvp
    cases hover : is_game_over g with
    | true =>
      constructor
      · intro hsafe
        simp only [oSafe, hover, if_true] at hsafe
        simp only [minimaxF, hover, if_true]
        split at hsafe
        · exact absurd hsafe (by simp)
        · next hX => simp only [if_neg hX]; split <;> norm_num
      · intro hsafe
        simp only [xSafe, hover, if_true] at hsafe
        simp only [minimaxF, hover, if_true]
        split at hsafe
        · exact absurd hsafe (by simp)
        · next hX => simp only [if_neg hX]; split <;> norm_num
    | false =>
      have hmem : ∀ m ∈ available_cells g, g.board[m]? = some none :=
        fun m hm => mem_avail hm
      have hcnt2 : ∀ m, g.board[m]? = some none →
          count_empty (make_move g m (some 'O')) < fuel ∧
          count_empty (make_move g m (some 'X')) < fuel := by
        intro m hm
        have h1 := count_empty_make_move g m 'O' hm
        have h2 := count_empty_make_move g m 'X' hm
        omega
      constructor
      · intro hsafe
        simp only [oSafe, hover, Bool.false_eq_true, if_false] at hsafe
        obtain ⟨m, hmm, hx⟩ := List.any_eq_true.mp hsafe
        have hchild := (ih (make_move g m (some 'O')) (d - 1)
          (hcnt2 m (hmem m hmm)).1
          (valid_player_make_move g m (some 'O'))).2 hx
        simp only [minimaxF, hover, Bool.false_eq_true, if_false, if_pos rfl]
        refine le_trans hchild ?_
        have hres : ∀ x, g.board[x]? = some none →
            (minimaxF fuel (make_move g x (some 'O')) (d - 1)
              (get_enemy 'O')).2 = make_move g x (some 'O') :=
          fun x hx2 => minimaxF_snd fuel _ _ _ (hcnt2 x hx2).1
            (valid_player_make_move g x (some 'O'))
        exact fold_max_fst_ge_mem g 'O'
          (fun g' => minimaxF fuel g' (d - 1) (get_enemy 'O')) hvp hres
          (available_cells g) hmem (-1) m hmm
      · intro hsafe
        simp only [xSafe, hover, Bool.false_eq_true, if_false] at hsafe
        have hall := List.all_eq_true.mp hsafe
        simp only [minimaxF, hover, Bool.false_eq_true, if_false,
          if_neg (by decide : ¬('X' : Char) = 'O')]
        have hres : ∀ x, g.board[x]? = some none →
            (minimaxF fuel (make_move g x (some 'X')) (d - 1)
              (get_enemy 'X')).2 = make_move g x (some 'X') :=
          fun x hx2 => minimaxF_snd fuel _ _ _ (hcnt2 x hx2).2
            (valid_player_make_move g x (some 'X'))
        refine fold_min_fst_ge g 'X'
          (fun g' => minimaxF fuel g' (d - 1) (get_enemy 'X')) hvp hres
          (available_cells g) hmem ?_ 1 (by norm_num)
        intro x hx
        exact (ih (make_move g x (some 'X')) (d - 1)
          (hcnt2 x (hmem x hx)).2
          (valid_player_make_move g x (some 'X'))).1 (hall x hx)

/-- The candidate loop of `__get_best_choice` restores the game state. -/
theorem best_choice_scan_snd (g : Game) (d : Int) (p : Char)
    (hvp : valid_player g) : (best_choice_scan g d p).2 = g := by
  have hmem : ∀ m ∈ available_cells g, g.board[m]? = some none :=
    fun m hm => mem_avail hm
  have hres : ∀ m, g.board[m]? = some none →
      (minimax_run (make_move g m (some p)) (d - 1) (get_enemy p)).2
        = make_move g m (some p) :=
    fun m _ => minimax_run_snd _ _ _ (valid_player_make_move g m (some p))
  exact fold_scan_snd g p
    (fun g' => minimax_run g' (d - 1) (get_enemy p)) hvp hres
    (fun ch mv v => if v > 0 then [mv] else if v = 0 then ch ++ [mv] else ch)
    (available_cells g) hmem []

/-! ### Concrete positions and random sources used by the theorems -/

/-- Play a list of cells from `g`, each as the then-current player — the
driver loop's `game.make_move(move, game.current_player)`. -/
def playMoves (g : Game) : List Nat → Game
  | [] => g
  | m :: ms => playMoves (make_move g m (some g.current_player)) ms

/-- Each move of the list is made on a non-terminal state and validates. -/
def movesOk (g : Game) : List Nat → Bool
  | [] => true
  | m :: ms =>
    !(is_game_over g) && validate_move g (Int.ofNat m) &&
      movesOk (make_move g m (some g.current_player)) ms

theorem reachable_of_movesOk : ∀ (ms : List Nat) (g : Game), Reachable g →
    movesOk g ms = true → Reachable (playMoves g ms) := by
  intro ms
  induction ms with
  | nil => intro g hg _; exact hg
  | cons m ms ih =>
    intro g hg hok
    simp only [movesOk, Bool.and_eq_true, Bool.not_eq_true'] at hok
    exact ih _ (Reachable.step g m hg hok.1.1 hok.1.2) hok.2

/-- A terminal position won by X: the spec's `[X,X,X,_,_,_,_,_,_]` pattern
with O's two answering marks. -/
def gXwin : Game :=
  ⟨[some 'X', some 'X', some 'X', some 'O', some 'O', none, none, none, none],
    0, "Running", 'O'⟩

/-- The spec's full drawn board `[X,O,X,X,O,O,O,X,X]`: no empty cell. -/
def gFull : Game :=
  ⟨[some 'X', some 'O', some 'X', some 'X', some 'O', some 'O', some 'O',
    some 'X', some 'X'], 0, "Running", 'X'⟩

/-- O to move with X holding the double threat {0,1,2}/{0,3,6}: every legal
O move still lets X win, so the candidate scan accumulates nothing. -/
def g8 : Game :=
  ⟨[some 'X', some 'X', none, some 'X', some 'O', none, none, none, some 'O'],
    0, "Running", 'O'⟩

/-- Reachable position, O to move, empty cells {0, 2} with cell 1 occupied:
both O moves win for O (value 0), so the candidate set is `[0, 2]` and the
`randint(min, max)` draw may land on the occupied cell 1. -/
def g10 : Game :=
  ⟨[none, some 'X', none, some 'X', some 'O', some 'X', some 'O', some 'X',
    some 'O'], 0, "Running", 'O'⟩

/-- Non-terminal position with empty cells {0, 2}; cell 1 is occupied, so the
easy strategy's `randint(0, 2)` can return the occupied cell 1. -/
def cexG7 : Game :=
  ⟨[none, some 'X', none, some 'O', some 'X', some 'O', some 'X', some 'O',
    some 'X'], 0, "Running", 'O'⟩

/-- A random source that always answers the lower bound. -/
def rnd0 : Nat → Nat → Nat := fun a _ => a

/-- A random source that answers the midpoint of the range: a legitimate
`randint` draw since `a ≤ (a + b) / 2 ≤ b` whenever `a ≤ b`. -/
def rndMid : Nat → Nat → Nat := fun a b => (a + b) / 2

/-- A random source answering one above the lower bound, clamped to the
range: a legitimate `randint` draw. -/
def rndInc : Nat → Nat → Nat := fun a b => min (a + 1) b

theorem rndInc_possible : ∀ (a b : Nat), a ≤ b →
    a ≤ rndInc a b ∧ rndInc a b ≤ b :=
  fun a b hab => ⟨le_min (Nat.le_succ a) hab, min_le_right (a + 1) b⟩

theorem foldl_min_le_init : ∀ (xs : List Nat) (x : Nat), xs.foldl min x ≤ x := by
  intro xs
  induction xs with
  | nil => intro x; exact le_refl x
  | cons y ys ih =>
    intro x
    exact le_trans (ih (min x y)) (min_le_left x y)

theorem init_le_foldl_max : ∀ (xs : List Nat) (x : Nat), x ≤ xs.foldl max x := by
  intro xs
  induction xs with
  | nil => intro x; exact le_refl x
  | cons y ys ih =>
    intro x
    exact le_trans (le_max_left x y) (ih (max x y))

theorem g10_reachable : Reachable g10 := by
  have h := reachable_of_movesOk [1, 4, 3, 6, 5, 8, 7] initGame Reachable.init
    (by decide)
  have e : playMoves initGame [1, 4, 3, 6, 5, 8, 7] = g10 := by decide
  rwa [e] at h

/-! ### The claims -/

/-- C1: `apply_move(cell, mark)` — the `validate_move`-guarded `make_move` —
fails with `InvalidMove` exactly when the cell index is outside 0–8 or the
addressed cell is not empty (in particular at cell 9 and cell -1), and only on
success sets the cell to the given mark; on failure no new state is produced,
so the board is unchanged. -/
theorem C1_apply_move_contract : ∀ (g : Game) (cell : Int) (mark : Char),
    (apply_move g cell mark = .error .InvalidMove ↔
      (cell < 0 ∨ 8 < cell ∨ g.board.getD cell.toNat none ≠ none)) ∧
    (apply_move g cell mark = .error .InvalidMove ∨
      apply_move g cell mark = .ok (make_move g cell.toNat (some mark))) ∧
    (make_move g cell.toNat (some mark)).board
      = g.board.set cell.toNat (some mark) ∧
    apply_move g 9 mark = .error .InvalidMove ∧
    apply_move g (-1) mark = .error .InvalidMove := by
  intro g cell mark
  have hgen : ∀ (c : Int),
      apply_move g c mark = .error .InvalidMove ↔
      (c < 0 ∨ 8 < c ∨ g.board.getD c.toNat none ≠ none) := by
    intro c
    constructor
    · intro h
      by_contra hno
      push_neg at hno
      obtain ⟨h1, h2, h3⟩ := hno
      have hval : validate_move g c = true := by
        unfold validate_move
        rw [if_neg (by omega), if_neg (fun hn => hn h3)]
      unfold apply_move at h
      rw [if_pos hval] at h
      exact absurd h (by simp)
    · intro h
      have hval : validate_move g c = false := by
        unfold validate_move
        by_cases h1 : c < 0 ∨ 8 < c
        · rw [if_pos h1]
        · rw [if_neg h1]
          rcases h with h | h | h
          · exact absurd (Or.inl h) h1
          · exact absurd (Or.inr h) h1
          · rw [if_pos h]
      unfold apply_move
      rw [hval]
      simp
  refine ⟨hgen cell, ?_, rfl, ?_, ?_⟩
  · unfold apply_move
    by_cases h : validate_move g cell = true
    · exact Or.inr (by rw [if_pos h])
    · exact Or.inl (by rw [if_neg h])
  · exact (hgen 9).mpr (by norm_num)
  · exact (hgen (-1)).mpr (by norm_num)

/-- C2 counterexample: a terminal state whose winner is X on which the
minimax value function returns -1, not the claimed +1. -/
theorem C2_counterexample :
    is_game_over gXwin = true ∧ get_winner gXwin = some 'X' ∧
    (minimax_run gXwin 9 'O').1 = -1 := by decide

/-- C2 amended: on every terminal state, minimax returns -1 when the winner
is X, +1 when the winner is the dead literal mark Y, and 0 otherwise — for
draws and for O wins alike. -/
theorem C2_amended_terminal_values : ∀ (g : Game) (d : Int) (p : Char),
    is_game_over g = true →
    (minimax_run g d p).1 =
      (if get_winner g = some 'X' then -1
       else if get_winner g = some 'Y' then 1
       else 0) := by
  intro g d p h
  simp [minimax_run, minimaxF, h]

/-- C2 witness: the amended terminal mapping, instantiated on the X-won
terminal position. -/
theorem C2_amended_witness :
    (minimax_run gXwin 3 'X').1 =
      (if get_winner gXwin = some 'X' then -1
       else if get_winner gXwin = some 'Y' then 1
       else 0) :=
  C2_amended_terminal_values gXwin 3 'X' (by decide)

/-- C3: the +1 ("O wins") branch of the minimax terminal check never fires:
`get_winner` only returns X, O or `none`, never the compared literal Y, and
consequently the minimax value is always in {-1, 0}. -/
theorem C3_plus_one_branch_dead : ∀ (g : Game),
    get_winner g ≠ some 'Y' ∧
    (get_winner g = some 'X' ∨ get_winner g = some 'O' ∨ get_winner g = none) ∧
    (∀ (d : Int) (p : Char),
      (minimax_run g d p).1 = -1 ∨ (minimax_run g d p).1 = 0) :=
  fun g => ⟨get_winner_ne_Y g, get_winner_range g,
    fun d p => minimax_run_fst g d p⟩

/-- C4: on a reachable non-terminal state, a minimax-strategy query — the
candidate loop of `__get_best_choice` and every `__minimax` call — performs
balanced apply/undo pairs, so the state it returns equals the state passed
in: the caller observes no net mutation. -/
theorem C4_search_restores_state : ∀ (g : Game) (d : Int), Reachable g →
    is_game_over g = false →
    (best_choice_scan g d g.current_player).2 = g ∧
    (∀ (d2 : Int) (p : Char), (minimax_run g d2 p).2 = g) ∧
    (∀ (rnd : Nat → Nat → Nat) (c : Nat) (g2 : Game),
      get_best_choice rnd g d g.current_player = .ok (c, g2) → g2 = g) := by
  intro g d hr _hover
  have hvp := reachable_valid_player hr
  refine ⟨best_choice_scan_snd g d _ hvp,
    fun d2 p => minimax_run_snd g d2 p hvp, ?_⟩
  intro rnd c g2 h
  have hs := best_choice_scan_snd g d g.current_player hvp
  simp only [get_best_choice] at h
  cases hc : (best_choice_scan g d g.current_player).1 with
  | nil => rw [hc] at h; simp [pymin, pymax] at h
  | cons x xs =>
    rw [hc] at h
    simp only [pymin, pymax] at h
    rw [Except.ok.injEq, Prod.mk.injEq] at h
    rw [← h.2, hs]

/-- C4 witness: the restoration theorem instantiated on the reachable
position `g10`. -/
theorem C4_witness :
    (best_choice_scan g10 2 g10.current_player).2 = g10 ∧
    (minimax_run g10 5 'X').2 = g10 ∧ g10 = g10 := by
  have h := C4_search_restores_state g10 2 g10_reachable (by decide)
  exact ⟨h.1, h.2.1 5 'X', h.2.2 rndMid 1 g10 (by decide)⟩

/-- C5: on a reachable state, playing a mark into an empty cell with
`make_move` and then undoing it (writing the cell back to empty, which
toggles the turn back) restores the board and `current_player` — the whole
game state — exactly. -/
theorem C5_apply_undo_roundtrip : ∀ (g : Game) (cell : Nat) (mark : Char),
    Reachable g → cell ∈ available_cells g →
    make_move (make_move g cell (some mark)) cell none = g :=
  fun g cell mark hr hm =>
    make_move_undo g cell mark (reachable_valid_player hr) (mem_avail hm)

/-- C5 witness: apply/undo on cell 4 of the initial board. -/
theorem C5_witness :
    make_move (make_move initGame 4 (some 'X')) 4 none = initGame :=
  C5_apply_undo_roundtrip initGame 4 'X' Reachable.init (by decide)

/-- C6 counterexample: on a board with no empty cells, `AI.play` does not
return a typed `NoLegalMoves` result — in both difficulties it fails with the
uncontrolled `ValueError` that Python's `min` raises on an empty sequence
(the source has no `NoLegalMoves` error at all). -/
theorem C6_counterexample :
    available_cells gFull = [] ∧
    play rnd0 "master" gFull = .error .ValueError ∧
    play rnd0 "easy" gFull = .error .ValueError := by decide

/-- C6 amended: invoked on a state with no empty cells, `AI.play` fails, for
every difficulty and random source, with the `ValueError` exception raised by
`min()` on an empty sequence — an uncontrolled exception, not a typed
`NoLegalMoves` result. -/
theorem C6_amended_full_board_raises : ∀ (rnd : Nat → Nat → Nat)
    (difficulty : String) (g : Game), available_cells g = [] →
    play rnd difficulty g = .error .ValueError := by
  intro rnd difficulty g h
  by_cases hd : difficulty = "easy"
  · simp [play, hd, make_easy_move, h, pymin, pymax, Except.map]
  · simp [play, hd, make_master_move, get_best_choice, best_choice_scan, h,
      pymin, pymax]

/-- C6 witness: the amended failure theorem on the spec's drawn full board. -/
theorem C6_amended_witness : play rndMid "master" gFull = .error .ValueError :=
  C6_amended_full_board_raises rndMid "master" gFull (by decide)

/-- C7 counterexample: on the non-terminal position with empty cells {0, 2},
the easy strategy with the legitimate draw `randint(0, 2) = 1` returns cell 1,
which is not a member of `available_cells()` — the draw is over the index
range, not the set. -/
theorem C7_counterexample :
    is_game_over cexG7 = false ∧
    available_cells cexG7 = [0, 2] ∧
    make_easy_move rndInc cexG7 = .ok 1 ∧
    1 ∉ available_cells cexG7 ∧
    rndInc 0 2 = 1 ∧ 0 ≤ 1 ∧ (1 : Nat) ≤ 2 := by decide

/-- C7 amended: on every state with at least one empty cell, the easy
strategy returns `rnd(min(available), max(available))`: a draw from the
integer range between the smallest and largest empty cell index.  Any
legitimate draw lies within that range, but need not be an available cell. -/
theorem C7_amended_easy_move_range : ∀ (g : Game) (rnd : Nat → Nat → Nat)
    (x : Nat) (xs : List Nat),
    (∀ a b, a ≤ b → a ≤ rnd a b ∧ rnd a b ≤ b) →
    available_cells g = x :: xs →
    make_easy_move rnd g = .ok (rnd (xs.foldl min x) (xs.foldl max x)) ∧
    xs.foldl min x ≤ rnd (xs.foldl min x) (xs.foldl max x) ∧
    rnd (xs.foldl min x) (xs.foldl max x) ≤ xs.foldl max x := by
  intro g rnd x xs hr h
  have hle : xs.foldl min x ≤ xs.foldl max x :=
    le_trans (foldl_min_le_init xs x) (init_le_foldl_max xs x)
  have hb := hr _ _ hle
  refine ⟨?_, hb.1, hb.2⟩
  unfold make_easy_move
  rw [h]
  rfl

/-- C7 witness: the amended range theorem on the position with empty cells
{0, 2} and the clamped-increment draw. -/
theorem C7_witness :
    make_easy_move rndInc cexG7
      = .ok (rndInc ([2].foldl min 0) ([2].foldl max 0)) ∧
    [2].foldl min 0 ≤ rndInc ([2].foldl min 0) ([2].foldl max 0) ∧
    rndInc ([2].foldl min 0) ([2].foldl max 0) ≤ [2].foldl max 0 :=
  C7_amended_easy_move_range cexG7 rndInc 0 [2] rndInc_possible (by decide)

/-- C8 counterexample: on the reachable-shaped double-threat position `g8`
(O to move, X threatening two lines), every move's value is below 0, the scan
accumulates no candidate — and `__get_best_choice` then fails with
`ValueError` from `min([])` instead of falling back and returning normally:
`choices is not None` is always true of a list, so the fallback is dead. -/
theorem C8_counterexample :
    is_game_over g8 = false ∧
    available_cells g8 = [2, 5, 6, 7] ∧
    (best_choice_scan g8 4 'O').1 = [] ∧
    get_best_choice rnd0 g8 4 'O' = .error .ValueError := by decide

/-- C8 amended: whenever the candidate scan accumulates no move,
`__get_best_choice` raises `ValueError` (from `min` of the empty candidate
list); the min/max-range fallback over all available cells is unreachable
because `choices is not None` always holds of the list `choices`. -/
theorem C8_amended_empty_choices_raise : ∀ (rnd : Nat → Nat → Nat) (g : Game)
    (d : Int) (p : Char), (best_choice_scan g d p).1 = [] →
    get_best_choice rnd g d p = .error .ValueError := by
  intro rnd g d p h
  simp [get_best_choice, h, pymin, pymax]

/-- C8 witness: the amended failure theorem on the double-threat position. -/
theorem C8_amended_witness :
    get_best_choice rndMid g8 4 'O' = .error .ValueError :=
  C8_amended_empty_choices_raise rndMid g8 4 'O' (by decide)

/-- C9: the minimax value of the opening position (all nine cells empty) at
depth budget 9 with O to move is exactly 0: it is at most 0 because the value
function never returns +1 (the Y branch is dead), and at least 0 because O,
moving first, can always keep X from completing a line (certified by
`oSafe`). -/
theorem C9_opening_value_draw : (minimax_run initGame 9 'O').1 = 0 := by
  have hc : count_empty initGame + 1 = 10 := by decide
  have hsafe : oSafe 10 initGame = true := by decide
  have hge : 0 ≤ (minimaxF 10 initGame 9 'O').1 :=
    (safe_sound 10 initGame 9 (by decide) (Or.inl rfl)).1 hsafe
  unfold minimax_run
  rw [hc]
  rcases minimaxF_fst 10 initGame 9 'O' with h | h
  · omega
  · exact h

/-- C10: on the reachable non-terminal position `g10` (empty cells {0, 2},
both candidate moves valued 0), the master strategy with the legitimate
midpoint draw `randint(0, 2) = 1` returns cell 1 — an occupied cell, not a
member of `available_cells()`: the return value is only constrained to the
min/max range of the candidate indices. -/
theorem C10_master_returns_occupied_cell :
    Reachable g10 ∧ is_game_over g10 = false ∧
    (best_choice_scan g10 2 'O').1 = [0, 2] ∧
    play rndMid "master" g10 = .ok (1, g10) ∧
    1 ∉ available_cells g10 ∧
    (∀ (a b : Nat), a ≤ b → a ≤ rndMid a b ∧ rndMid a b ≤ b) := by
  refine ⟨g10_reachable, by decide, by decide, by decide, by decide, ?_⟩
  intro a b hab
  unfold rndMid
  omega

end TicMiniMaxToe
